import Mathlib

/-!
Verification of the qiskit-tutorials teaching notebooks.

This file gives a shallow embedding of the notebook-defined Python helpers of the
repository (the QFT / QPE exercise notebooks and the estimator notebook) and proves
or refutes the specification claims about them.

Conventions of the embedding:
* Python bitstrings (strings of the characters 0 and 1, most significant first) are
  `List Bool`, a list entry `true` standing for the character 1; `int(c)` on such a
  character is `Bool.toNat`.
* Python ints and floats appearing in exact arithmetic are modelled by `ℚ`
  (with `zpow` for `**` on possibly negative exponents, as Python `**` yields a
  float there); genuinely real-valued operations (`np.linalg.norm`) use `ℝ`.
* Dictionaries are association lists in insertion order, updated in place
  (`dictUpsert`), matching the Python dict iteration-order semantics.
* A qiskit `QuantumCircuit` is the number of its qubits together with the list of
  appended gates, in order.  Registers are the lists of their global qubit indices.
* The matrices produced by `scipy.linalg.expm` in `random_unitary_iter` are kept
  symbolic (`UExpr`): `UExpr.expmI c` stands for `expm(c * (1j*H))` for the one
  random Hermitian matrix `H` fixed by the iterator; `interpU` interprets these
  expressions in an arbitrary complex Banach algebra.
-/

namespace QiskitTutorials

/-- Least-significant-bit-first binary digits of a natural number; `natBitsLE 0 = []`,
mirroring that the minimal binary form of a positive number has no leading zeros. -/
def natBitsLE (i : ℕ) : List Bool :=
  if h : i = 0 then [] else (i % 2 == 1) :: natBitsLE (i / 2)
decreasing_by exact Nat.div_lt_self (Nat.pos_of_ne_zero h) one_lt_two

/-- Most-significant-bit-first binary digits of a natural number (empty for 0). -/
def natBits (i : ℕ) : List Bool := (natBitsLE i).reverse

/-- Embeds `to_bitstring(n_qubits, ind)` from the QFT notebook:
`format(ind, "0{n_qubits}b")`, the minimal binary digits of `ind` (one digit `0`
when `ind = 0`), left-padded with zeros to at least `n_qubits` characters.  Python
`format` pads but never truncates. -/
def to_bitstring (n_qubits : ℕ) (ind : ℕ) : List Bool :=
  let digits := if ind = 0 then [false] else natBits ind
  List.replicate (n_qubits - digits.length) false ++ digits

/-- Embeds `from_bitstring(n_qubits, bitstring)` from the QFT notebook:
`np.sum([2 ** (n_qubits - 1 - int(b)) for b in bitstring])`.
Note that the exponent uses the bit value `int(b)`, not the position of the bit,
and that Python `**` with a negative exponent yields a float, hence the value is
in `ℚ` here. -/
def from_bitstring (n_qubits : ℕ) (bitstring : List Bool) : ℚ :=
  (bitstring.map (fun b => (2 : ℚ) ^ ((n_qubits : ℤ) - 1 - (b.toNat : ℤ)))).sum

/-- Embeds `np.round` on an exact rational input: round half to even. -/
def np_round (q : ℚ) : ℤ :=
  let f := ⌊q⌋
  let r := q - (f : ℚ)
  if r < 1 / 2 then f
  else if 1 / 2 < r then f + 1
  else if f % 2 = 0 then f else f + 1

/-- Embeds `get_correct_bitstring(target_phase, r1)` from the QFT notebook:
`to_bitstring(r1, int(np.round(target_phase * (2**r1))))`. -/
def get_correct_bitstring (target_phase : ℚ) (r1 : ℕ) : List Bool :=
  to_bitstring r1 (np_round (target_phase * 2 ^ r1)).toNat

/-- The phase read off a measured bitstring in `phase_from_counts` (QFT notebook):
`np.sum([(int(v)) * 2 ** -(i + 1) for i, v in enumerate(bitstring)])`. -/
def phase_formula (bitstring : List Bool) : ℚ :=
  ((bitstring.enum).map (fun p => (p.2.toNat : ℚ) * (2 : ℚ) ^ (-((p.1 : ℤ) + 1)))).sum

/-- The phase read off the sampled bitstring in `get_phase_from_qpe_circuit`
(QPE notebook): `np.sum([(int(v))*2**-(i+1) for i,v in enumerate(bitstring)])`. -/
def qpe_phase_formula (bitstring : List Bool) : ℚ :=
  ((bitstring.enum).map (fun p => (p.2.toNat : ℚ) * (2 : ℚ) ^ (-((p.1 : ℤ) + 1)))).sum

/-- Recursive form of the measured-bitstring phase, used for proofs. -/
def phaseAux : List Bool → ℚ
  | [] => 0
  | b :: t => (b.toNat : ℚ) / 2 + phaseAux t / 2

/-- Embeds `qiskit.result.Counts.most_frequent` (external SDK, as called by
`phase_from_counts`): the key attaining the maximal count, an SDK error when the
dictionary is empty or the maximal count is attained more than once. -/
def most_frequent (counts : List (List Bool × ℕ)) : Except String (List Bool) :=
  match counts with
  | [] => Except.error "max arg is an empty sequence"
  | _ :: _ =>
    let maxVal := (counts.map Prod.snd).foldl max 0
    match counts.filter (fun kv => kv.2 == maxVal) with
    | [kv] => Except.ok kv.1
    | _ => Except.error "Multiple values have the same maximum counts"

/-- Embeds `phase_from_counts(counts)` from the QFT notebook, as the pair of the computed
phase and the most frequent bitstring (the histogram figure it also returns is not
modelled).  The only failure is the one propagated from the SDK call
`Counts(counts).most_frequent()`. -/
def phase_from_counts (counts : List (List Bool × ℕ)) : Except String (ℚ × List Bool) :=
  match most_frequent counts with
  | Except.error e => Except.error e
  | Except.ok bitstring => Except.ok (phase_formula bitstring, bitstring)

/-- Symbolic matrix expressions for the unitaries built by `random_unitary_iter`
(QPE notebook).  `expmI c` stands for `scipy.linalg.expm(c * irham)` where
`irham = 1j*rham` and `rham` is the one random Hermitian matrix fixed when the
iterator is created; `divTrace u` stands for `u / np.trace(u)`. -/
inductive UExpr where
  | expmI (c : ℕ)
  | divTrace (u : UExpr)
deriving DecidableEq, Repr

/-- Gates appended to circuits by the notebooks.  `qftGate` is the library
`QFT(num_qubits=..., inverse=..., do_swaps=...)` block appended on `qargs`;
`cphase k ctrl targ` is the controlled-`R_k` phase gate of the QFT exercise;
`swap` the qubit-order-reversing swap. -/
inductive Gate where
  | h (q : ℕ)
  | controlledU (u : UExpr) (ctrl : ℕ) (targs : List ℕ)
  | qftGate (numQubits : ℕ) (inverse doSwaps : Bool) (qargs : List ℕ)
  | cphase (k : ℕ) (ctrl targ : ℕ)
  | swap (a b : ℕ)
deriving DecidableEq, Repr

/-- A qiskit `QuantumCircuit`: its qubit count and the ordered list of appended
gates.  Registers are represented by the lists of their global qubit indices. -/
structure QuantumCircuit where
  numQubits : ℕ
  data : List Gate
deriving DecidableEq, Repr

/-- Embeds `circ.append(gate, qargs)`. -/
def QuantumCircuit.appendGate (circ : QuantumCircuit) (g : Gate) : QuantumCircuit :=
  { circ with data := circ.data ++ [g] }

/-- Embeds `circ.h(register)`: qiskit broadcasts `h` over every qubit of the register. -/
def QuantumCircuit.hOnRegister (circ : QuantumCircuit) (qs : List ℕ) : QuantumCircuit :=
  { circ with data := circ.data ++ qs.map Gate.h }

/-- Embeds `random_unitary_iter(r1, r2)` from the QPE notebook.  The iterator fixes one
random Hermitian `rham` of size `2^r2` and, for `m in range(r1)`, computes
`rut = expm((2**m)*irham)`, evaluates `rut/np.trace(rut)` WITHOUT assigning the
result, and yields `rut`. -/
def random_unitary_iter (r1 r2 : ℕ) : List UExpr :=
  (List.range r1).map (fun m =>
    let rut := UExpr.expmI (2 ^ m)
    let _ := UExpr.divTrace rut
    rut)

/-- Embeds `controlled_U_gate(circ, ctrl, targs, rut)` from the QPE notebook:
`circ.append(UnitaryGate(rut).control(1), qargs=[ctrl, *targs])`. -/
def controlled_U_gate (circ : QuantumCircuit) (ctrl : ℕ) (targs : List ℕ)
    (rut : UExpr) : QuantumCircuit :=
  circ.appendGate (Gate.controlledU rut ctrl targs)

/-- Embeds `qpe_circuit(r1, r2)` from the QPE notebook: Hadamards on the whole first
register, an enumerated loop appending `controlled_U_gate` with first-register
qubit `ind` as control and the whole second register as targets, then the
library inverse QFT on the first register.  (The loop also extracts an
eigenphase and eigenvector of the first unitary; that bookkeeping does not touch
the circuit and is not part of the gate list.) -/
def qpe_circuit (r1 r2 : ℕ) : QuantumCircuit :=
  let first_register := List.range r1
  let second_register := List.range' r1 r2
  let circ : QuantumCircuit := ⟨r1 + r2, []⟩
  let circ := circ.hOnRegister first_register
  let unitaries := random_unitary_iter r1 r2
  let circ := (unitaries.enum).foldl
    (fun c p => controlled_U_gate c p.1 second_register p.2) circ
  circ.appendGate (Gate.qftGate r1 true true first_register)

/-- Embeds `build_qft_circuit(n_qubits)` from the QFT notebook, exactly as in the source:
the body is `circuit = QuantumCircuit(n_qubits)`, then the bare `...` (Python
`Ellipsis`, a no-op expression left as the student exercise), then
`return circuit`; so the returned circuit has no gates. -/
def build_qft_circuit (n_qubits : ℕ) : QuantumCircuit :=
  let circuit : QuantumCircuit := ⟨n_qubits, []⟩
  circuit

/-- Modelled from the spec (for comparison with `build_qft_circuit`, whose body is
left as an exercise in the source): the textbook QFT circuit the spec describes,
"apply a Hadamard and a bounded sequence of controlled-phase gates per qubit,
then reverse qubit order" with swaps. -/
def textbook_qft_gates (n_qubits : ℕ) : List Gate :=
  ((List.range n_qubits).map (fun j =>
    Gate.h j :: (List.range (n_qubits - 1 - j)).map
      (fun d => Gate.cphase (d + 2) (j + d + 1) j))).flatten
  ++ (List.range (n_qubits / 2)).map (fun a => Gate.swap a (n_qubits - 1 - a))

/-- Interpretation of a symbolic unitary expression in a complex Banach algebra,
given the element `iH` standing for `1j*rham`:  `expmI c` is the matrix
exponential of `c • iH`; `divTrace` has no meaning for an abstract algebra
element ( the trace is not available ), so it interprets to `none`. -/
noncomputable def interpU (A : Type) [NormedRing A] [NormedAlgebra ℂ A]
    (iH : A) : UExpr → Option A
  | UExpr.expmI c => some (NormedSpace.exp ℂ ((c : ℕ) • iH))
  | UExpr.divTrace _ => none

/-- One interaction with the remote quantum-hardware service.  The notebooks only
ever submit a job (`SamplerV2`/`EstimatorV2` `.run` on a backend of the service)
or load one by its identifier (`service.job(job_key)`); `cancelJob` is included
so that its absence from the performed traces is expressible. -/
inductive RemoteOp where
  | submitJob
  | loadJob (key : String)
  | cancelJob (key : String)
deriving DecidableEq, Repr

/-- The `which` run/load dispatch of the hardware cell of the QFT notebook,
as the list of remote-service interactions it performs.  The `run` branch is
`real_job = ...`, an unsolved exercise placeholder (Python `Ellipsis`), so it
performs no request; the `load` branch performs the single `service.job(job_key)`
(the later blocking `.result()` read belongs to that same request/response); any
other value raises the notebook-raised
`ValueError(f"Expected run or load, got: {which}")`. -/
def which_dispatch_qft (which : String) (job_key : String) :
    Except String (List RemoteOp) :=
  if which = "run" then Except.ok []
  else if which = "load" then Except.ok [RemoteOp.loadJob job_key]
  else Except.error ("Expected run or load, got: " ++ which)

/-- The `which` run/load dispatch of the hardware cell of the estimator notebook:
`run` performs the single blocking `estimator.run(...)` submission inside
`backend_estimate_observables` (its `.result()` is the blocking response of the
same request), `load` performs the single `service.job(job_key)`.  There is no
`else` branch in this cell; with any other value nothing is performed (and the
later use of the unassigned `real_result` fails in the interpreter). -/
def which_dispatch_estimator (which : String) (job_key : String) : List RemoteOp :=
  if which = "run" then [RemoteOp.submitJob]
  else if which = "load" then [RemoteOp.loadJob job_key]
  else []

/-- A zip archive as the ordered list of the names of its entries (entry contents
are the figure PDFs and the JSON record; the claims are about names and counts). -/
structure ZipFile where
  entries : List String
deriving DecidableEq, Repr

/-- Embeds `zf.writestr(fn, data)`: appends one named entry. -/
def ZipFile.writestr (zf : ZipFile) (fn : String) : ZipFile :=
  ⟨zf.entries ++ [fn]⟩

/-- Embeds `fig_to_zip(fig, fn, zf)` from the QFT notebook: saves the figure as PDF into
a buffer and writes it to the archive under the name `fn`. -/
def fig_to_zip (fn : String) (zf : ZipFile) : ZipFile :=
  zf.writestr fn

/-- The key list of the `jobj` JSON record written to `specs.json` by the
submission cell of the QFT notebook, in source order. -/
def jobj_keys : List String :=
  ["__timestamp", "__jobj", "__ham", "__name", "__idm",
   "__fake_backend", "__real_backend",
   "__sv_counts", "__fake_counts", "__real_counts",
   "__target_phase", "__correct_bitstring",
   "__sv_computed_phase", "__sv_output_bitstring",
   "__fake_computed_phase", "__fake_output_bitstring",
   "__real_computed_phase", "__real_output_bitstring"]

/-- Embeds `zf_fpath` from the submission cell: the f-string building
`./NAME_IDM.zip`, where NAME is the student name with spaces replaced by
underscores and IDM is the student id. -/
def zf_fpath (your_name your_idm : String) : String :=
  "./" ++ (your_name.replace " " "_") ++ "_" ++ your_idm ++ ".zip"

/-- The end-of-notebook packaging cell of the QFT notebook: one zip archive at
`zf_fpath`, holding the four figure PDFs then `specs.json`. -/
def submission_zip (your_name your_idm : String) : String × ZipFile :=
  let zf : ZipFile := ⟨[]⟩
  let zf := fig_to_zip "stevector_results.pdf" zf
  let zf := fig_to_zip "fake_results.pdf" zf
  let zf := fig_to_zip "real_results.pdf" zf
  let zf := fig_to_zip "circuit.pdf" zf
  let zf := zf.writestr "specs.json"
  (zf_fpath your_name your_idm, zf)

/-- The keys the C5 claim requires `specs.json` to include: timestamp, job,
Hamiltonian, student name and id, both backend names, the three counts
dictionaries, the target phase, and the computed phases and bitstrings. -/
def claim_required_keys : List String :=
  ["__timestamp", "__jobj", "__ham", "__name", "__idm",
   "__fake_backend", "__real_backend",
   "__sv_counts", "__fake_counts", "__real_counts", "__target_phase",
   "__sv_computed_phase", "__fake_computed_phase", "__real_computed_phase",
   "__sv_output_bitstring", "__fake_output_bitstring", "__real_output_bitstring"]

/-- The keys of a Python dict modelled as an association list. -/
def dictKeys {α β : Type} (d : List (α × β)) : List α := d.map Prod.fst

/-- Embeds `d[k] = v` on a Python dict: update in place when the key exists, append
otherwise (Python dicts preserve first-insertion order). -/
def dictUpsert {α β : Type} [DecidableEq α] (d : List (α × β)) (k : α) (v : β) :
    List (α × β) :=
  if k ∈ dictKeys d then d.map (fun kv => if kv.1 = k then (k, v) else kv)
  else d ++ [(k, v)]

/-- The `outcomes` dict of the estimator-notebook rearrangement cell:
`for p in fine_param_sweep: outcomes[p] = sample_circuit(circuit, n_shots, [p])`.
The sampled counts dict for each parameter is the opaque `sample`. -/
def build_outcomes (sweep : List ℚ) (sample : ℚ → List (List Bool × ℕ)) :
    List (ℚ × List (List Bool × ℕ)) :=
  sweep.foldl (fun d p => dictUpsert d p (sample p)) []

/-- Embeds `bitstring_counts[bitstring][ind] = counts` (in-place array write). -/
def set_count (bc : List (List Bool × List ℕ)) (bs : List Bool) (ind cnt : ℕ) :
    List (List Bool × List ℕ) :=
  bc.map (fun kv => if kv.1 = bs then (kv.1, kv.2.set ind cnt) else kv)

/-- The inner loop of the rearrangement cell for one `(ind, k)` pair:
`for bitstring, counts in outcomes[k].items():` create the missing
`np.zeros((len(list(outcomes.keys()))))` row, then write `counts` at `ind`. -/
def rearrange_step (numKeys : ℕ) (bc : List (List Bool × List ℕ)) (ind : ℕ)
    (entry : List (List Bool × ℕ)) : List (List Bool × List ℕ) :=
  entry.foldl (fun bc2 kv =>
    let bc3 := if kv.1 ∈ dictKeys bc2 then bc2
               else bc2 ++ [(kv.1, List.replicate numKeys 0)]
    set_count bc3 kv.1 ind kv.2) bc

/-- The `bitstring_counts` dict produced by the rearrangement cell of the
estimator notebook: `for ind, k in enumerate(outcomes.keys())`, then the inner
bitstring loop.  Since the keys of `outcomes` are exactly its entries in order,
enumerating its keys and looking each one up is iterating its entries. -/
def bitstring_counts (sweep : List ℚ) (sample : ℚ → List (List Bool × ℕ)) :
    List (List Bool × List ℕ) :=
  let outcomes := build_outcomes sweep sample
  let numKeys := (dictKeys outcomes).length
  (outcomes.enum).foldl (fun bc p => rearrange_step numKeys bc p.1 p.2.2) []

/-- An estimator result as the notebooks consume it: `result.data.evs` and
`result.data.stds`, one row per observable. -/
structure EstimatorResult where
  evs : List (List ℚ)
  stds : List (List ℚ)

/-- Modelled from the spec: the external SDK estimator primitives (the
`StatevectorEstimator` of `sv_estimate_observables` and the `EstimatorV2` of
`backend_estimate_observables`; their code is the SDK, not this repository)
"compute expectation values ... for a circuit", returning for the pub
`(circuit, observables, param_sweep)` one row of expectation values and one row
of standard deviations per observable, with one entry per sweep point.  The
numeric values are the opaque `ev`/`std`. -/
def estimator_result (observables : List String) (sweep : List ℚ)
    (ev std : String → ℚ → ℚ) : EstimatorResult :=
  ⟨observables.map (fun o => sweep.map (ev o)),
   observables.map (fun o => sweep.map (std o))⟩

/-- Embeds `sparse_param_sweep = np.array((-2, -1, 0, 1, 2))` of the estimator
notebook's hardware cell. -/
def sparse_param_sweep : List ℚ := [-2, -1, 0, 1, 2]

/-- The four `plot_estimator_result` calls of the estimator notebook, each as the
pair of the result object passed and the `param_sweep` argument it is plotted
against: the ideal statevector result and the fake-backend result over
`fine_param_sweep`, then (in the hardware cell) the real result — submitted when
`which == "run"`, or the loaded job result when `which == "load"` — and the
mimicking fake result, both over `sparse_param_sweep`. -/
def estimator_plot_calls (which : String) (observables : List String)
    (fine : List ℚ) (ev std : String → ℚ → ℚ) (loaded : EstimatorResult) :
    List (EstimatorResult × List ℚ) :=
  let ideal_result := estimator_result observables fine ev std
  let fake_result := estimator_result observables fine ev std
  let real_result :=
    if which = "run" then estimator_result observables sparse_param_sweep ev std
    else loaded
  let fake_mimic_result := estimator_result observables sparse_param_sweep ev std
  [(ideal_result, fine), (fake_result, fine),
   (real_result, sparse_param_sweep), (fake_mimic_result, sparse_param_sweep)]

/-- The squared Euclidean norm of a real vector. -/
noncomputable def normSq (v : List ℝ) : ℝ := (v.map (fun x => x ^ 2)).sum

/-- Embeds `np.linalg.norm(v)`: the Euclidean norm. -/
noncomputable def np_linalg_norm (v : List ℝ) : ℝ := Real.sqrt (normSq v)

/-- The statement `initial_state /= np.linalg.norm(initial_state)` executed (twice)
by the QFT-check cell of the Fourier notebook on the prepared initial state. -/
noncomputable def qft_check_rescale (v : List ℝ) : List ℝ :=
  v.map (fun x => x / np_linalg_norm v)

/-! ## Theorems -/

/-- Folding the controlled-U appender over an indexed list of unitaries appends
one controlled gate per list entry, in order. -/
theorem foldl_controlled_data (targs : List ℕ) (l : List (ℕ × UExpr)) :
    ∀ (c : QuantumCircuit),
      (l.foldl (fun c p => controlled_U_gate c p.1 targs p.2) c).data
        = c.data ++ l.map (fun p => Gate.controlledU p.2 p.1 targs) := by
  induction l with
  | nil => intro c; simp
  | cons hd tl ih =>
    intro c
    rw [List.foldl_cons, ih]
    simp [controlled_U_gate, QuantumCircuit.appendGate]

/-- Enumerating a `map` over `range' k n` starting at `k` pairs each index with
the value of the mapped function at that index. -/
theorem enumFrom_map_range' (g : ℕ → UExpr) (n : ℕ) :
    ∀ (k : ℕ), ((List.range' k n).map g).enumFrom k
      = (List.range' k n).map (fun i => (i, g i)) := by
  induction n with
  | zero => intro k; simp
  | succ n ih =>
    intro k
    rw [List.range'_succ]
    simp [List.enumFrom, ih]

/-- Claim C1: for `r1, r2 ≥ 1`, `qpe_circuit(r1, r2)` is built as: a Hadamard on
each of the `r1` first-register qubits, then for each `m` in `0..r1-1` a
controlled `U^(2^m)` gate with first-register qubit `m` as control and the whole
second register as target, and finally the inverse QFT block on the first
register.  The second conjunct settles the parenthetical: `random_unitary_iter`
yields `expm((2^m) * iH)` for the fixed Hermitian `H`, and in any complex Banach
algebra that value is `U ^ (2^m)` for `U = expm(iH)`. -/
theorem C1_qpe_circuit_structure (r1 r2 : ℕ) (hr1 : 1 ≤ r1) (hr2 : 1 ≤ r2) :
    (qpe_circuit r1 r2).data =
      (List.range r1).map Gate.h
        ++ (List.range r1).map
            (fun m => Gate.controlledU (UExpr.expmI (2 ^ m)) m (List.range' r1 r2))
        ++ [Gate.qftGate r1 true true (List.range r1)] ∧
    (∀ (A : Type) [NormedRing A] [NormedAlgebra ℂ A] [CompleteSpace A] (iH : A),
      (random_unitary_iter r1 r2).map (interpU A iH)
        = (List.range r1).map (fun m => some (NormedSpace.exp ℂ iH ^ 2 ^ m))) := by
  constructor
  · unfold qpe_circuit random_unitary_iter
    dsimp only
    rw [List.range_eq_range', show List.enum = List.enumFrom 0 from rfl,
      enumFrom_map_range']
    simp [QuantumCircuit.appendGate, foldl_controlled_data,
      QuantumCircuit.hOnRegister, List.map_map, Function.comp, List.append_assoc]
  · intro A _ _ _ iH
    unfold random_unitary_iter
    rw [List.map_map]
    refine List.map_congr_left fun m _ => ?_
    show interpU A iH (UExpr.expmI (2 ^ m)) = _
    rw [interpU, NormedSpace.exp_nsmul]

/-- Claim C1, witness at `r1 = 1`, `r2 = 1`. -/
theorem C1_witness :
    (1 ≤ 1) ∧ (1 ≤ 1) ∧
    ((qpe_circuit 1 1).data =
      (List.range 1).map Gate.h
        ++ (List.range 1).map
            (fun m => Gate.controlledU (UExpr.expmI (2 ^ m)) m (List.range' 1 1))
        ++ [Gate.qftGate 1 true true (List.range 1)] ∧
    (∀ (A : Type) [NormedRing A] [NormedAlgebra ℂ A] [CompleteSpace A] (iH : A),
      (random_unitary_iter 1 1).map (interpU A iH)
        = (List.range 1).map (fun m => some (NormedSpace.exp ℂ iH ^ 2 ^ m)))) :=
  ⟨le_refl 1, le_refl 1, C1_qpe_circuit_structure 1 1 (le_refl 1) (le_refl 1)⟩

/-- Claim C2, counterexample: `build_qft_circuit` does not return the textbook QFT
circuit.  At `n_qubits = 1` the textbook circuit is a single Hadamard, but the
function as written in the source returns a circuit with no gates at all (its
body is the unsolved exercise placeholder). -/
theorem C2_counterexample :
    (build_qft_circuit 1).data = [] ∧
    textbook_qft_gates 1 = [Gate.h 0] ∧
    (build_qft_circuit 1).data ≠ textbook_qft_gates 1 := by
  refine ⟨rfl, by decide, by decide⟩

/-- Claim C2, amended: for every `n_qubits`, `build_qft_circuit(n_qubits)` returns
a circuit on `n_qubits` qubits containing no gates: the body of the function is
left as an exercise placeholder in the source, so no Hadamard, controlled-phase
gate or swap is ever appended. -/
theorem C2_build_qft_circuit_stub (n_qubits : ℕ) :
    (build_qft_circuit n_qubits).numQubits = n_qubits ∧
    (build_qft_circuit n_qubits).data = [] :=
  ⟨rfl, rfl⟩

/-- Claim C3, counterexample: notebook code does raise an exception of its own.
The which run/load dispatch of the QFT notebook's hardware cell raises
`ValueError` itself (not the SDK) when `which` is neither "run" nor "load". -/
theorem C3_counterexample :
    which_dispatch_qft "neither" "key" =
      Except.error "Expected run or load, got: neither" := by
  rfl

/-- Claim C3, amended: the notebooks implement no error handling of their own and
raise no exception of their own, with one exception: the which run/load dispatch
of the QFT notebook's hardware cell raises `ValueError` exactly when `which` is
neither "run" nor "load". -/
theorem C3_dispatch_error_iff (which job_key : String) :
    (∃ e, which_dispatch_qft which job_key = Except.error e) ↔
      which ≠ "run" ∧ which ≠ "load" := by
  by_cases h1 : which = "run"
  · simp [which_dispatch_qft, h1]
  · by_cases h2 : which = "load"
    · simp [which_dispatch_qft, h1, h2]
    · simp [which_dispatch_qft, h1, h2]

/-- Claim C4, counterexample: it is not true that every hardware-cell execution
performs exactly one job submission or one job load.  In the QFT notebook's
hardware cell with `which = "run"`, the submission line is the unsolved exercise
placeholder `real_job = ...`, so the cell performs no remote request at all. -/
theorem C4_counterexample :
    which_dispatch_qft "run" "key" = Except.ok [] ∧
    ¬ ∃ ops, which_dispatch_qft "run" "key" = Except.ok ops ∧ ops.length = 1 := by
  constructor
  · rfl
  · rintro ⟨ops, hops, hlen⟩
    have hok : Except.ok (ε := String) ([] : List RemoteOp) = Except.ok ops := by
      calc Except.ok [] = which_dispatch_qft "run" "key" := by rfl
        _ = Except.ok ops := hops
    cases hok
    simp at hlen

/-- Claim C4, amended: for every hardware-cell execution with `which` equal to
"run" or "load", the estimator notebook's hardware cell performs exactly one
remote interaction (one job submission for "run", one job load by identifier for
"load"); the QFT notebook's hardware cell performs at most one (its run branch is
an unsolved placeholder performing none, its load branch performs exactly one
load); and in all branches no request is ever repeated (no retry) and no job is
ever cancelled.  No timeout logic exists anywhere in these cells. -/
theorem C4_single_blocking_request (which job_key : String)
    (h : which = "run" ∨ which = "load") :
    (which_dispatch_estimator which job_key).length = 1 ∧
    (which = "run" → which_dispatch_estimator which job_key = [RemoteOp.submitJob]) ∧
    (which = "load" →
      which_dispatch_estimator which job_key = [RemoteOp.loadJob job_key]) ∧
    (∃ ops, which_dispatch_qft which job_key = Except.ok ops ∧ ops.length ≤ 1 ∧
      ops.Nodup ∧ ∀ k, RemoteOp.cancelJob k ∉ ops) ∧
    (which_dispatch_estimator which job_key).Nodup ∧
    (∀ k, RemoteOp.cancelJob k ∉ which_dispatch_estimator which job_key) := by
  rcases h with h | h
  · subst h
    simp [which_dispatch_estimator, which_dispatch_qft]
  · subst h
    simp [which_dispatch_estimator, which_dispatch_qft]

/-- Claim C4, witness at `which = "load"` with the job identifier recorded in
the estimator notebook. -/
theorem C4_witness :
    (("load" : String) = "run" ∨ ("load" : String) = "load") ∧
    ((which_dispatch_estimator "load" "crx14dshazpg0084b9xg").length = 1 ∧
    (("load" : String) = "run" →
      which_dispatch_estimator "load" "crx14dshazpg0084b9xg" = [RemoteOp.submitJob]) ∧
    (("load" : String) = "load" →
      which_dispatch_estimator "load" "crx14dshazpg0084b9xg" =
        [RemoteOp.loadJob "crx14dshazpg0084b9xg"]) ∧
    (∃ ops, which_dispatch_qft "load" "crx14dshazpg0084b9xg" = Except.ok ops ∧
      ops.length ≤ 1 ∧ ops.Nodup ∧ ∀ k, RemoteOp.cancelJob k ∉ ops) ∧
    (which_dispatch_estimator "load" "crx14dshazpg0084b9xg").Nodup ∧
    (∀ k, RemoteOp.cancelJob k ∉
      which_dispatch_estimator "load" "crx14dshazpg0084b9xg")) :=
  ⟨by decide, C4_single_blocking_request "load" "crx14dshazpg0084b9xg" (by decide)⟩

/-- Claim C5: the packaging cell produces exactly one zip archive, named from the
student name (spaces replaced by underscores) and id, with exactly five entries:
the four figure PDFs (statevector results, fake-backend results, real-hardware
results, circuit drawing) followed by `specs.json`, and the `jobj` record written
to `specs.json` includes the timestamp, job, Hamiltonian, student name and id,
both backend names, all three counts dictionaries, the target phase, and the
computed phases and bitstrings. -/
theorem C5_submission_zip (your_name your_idm : String) :
    (submission_zip your_name your_idm).2.entries =
      ["stevector_results.pdf", "fake_results.pdf", "real_results.pdf",
       "circuit.pdf", "specs.json"] ∧
    (submission_zip your_name your_idm).2.entries.length = 5 ∧
    (submission_zip your_name your_idm).1 =
      "./" ++ (your_name.replace " " "_") ++ "_" ++ your_idm ++ ".zip" ∧
    ∀ k ∈ claim_required_keys, k ∈ jobj_keys := by
  refine ⟨rfl, rfl, rfl, by decide⟩

/-- A number below `2 ^ n` has at most `n` minimal binary digits. -/
theorem natBitsLE_length_le : ∀ (n i : ℕ), i < 2 ^ n → (natBitsLE i).length ≤ n := by
  intro n
  induction n with
  | zero =>
    intro i hi
    have : i = 0 := by omega
    subst this
    simp [natBitsLE]
  | succ n ih =>
    intro i hi
    by_cases h0 : i = 0
    · subst h0; simp [natBitsLE]
    · rw [natBitsLE, dif_neg h0]
      have hdiv : i / 2 < 2 ^ n := by
        have hiff : i / 2 < 2 ^ n ↔ i < 2 ^ n * 2 :=
          Nat.div_lt_iff_lt_mul (by norm_num)
        rw [hiff]
        calc i < 2 ^ (n + 1) := hi
          _ = 2 ^ n * 2 := by rw [pow_succ]
      simpa using ih (i / 2) hdiv

/-- The power `2 ^ n` has exactly `n + 1` minimal binary digits. -/
theorem natBitsLE_length_pow (n : ℕ) : (natBitsLE (2 ^ n)).length = n + 1 := by
  induction n with
  | zero => simp [natBitsLE]
  | succ n ih =>
    rw [natBitsLE, dif_neg (by positivity)]
    have hdiv : 2 ^ (n + 1) / 2 = 2 ^ n := by
      rw [pow_succ, Nat.mul_div_cancel]
      norm_num
    simp [hdiv, ih]

/-- Rounding a nonnegative rational with `np.round` stays nonnegative. -/
theorem np_round_nonneg (q : ℚ) (hq : 0 ≤ q) : 0 ≤ np_round q := by
  have hf : (0 : ℤ) ≤ ⌊q⌋ := Int.floor_nonneg.mpr hq
  unfold np_round
  dsimp only
  split
  · exact hf
  · split
    · omega
    · split
      · exact hf
      · omega

/-- Claim C8: the round trip `from_bitstring(n, to_bitstring(n, i)) = i` fails —
`from_bitstring` uses the bit value `int(b)` where the bit position is required.
At the failing input `n_qubits = 2`, `i = 2`: `to_bitstring` yields the
bitstring 10, on which `from_bitstring` returns
`2 ^ (2-1-1) + 2 ^ (2-1-0) = 3`, not `2`. -/
theorem C8_roundtrip_failure :
    to_bitstring 2 2 = [true, false] ∧
    from_bitstring 2 (to_bitstring 2 2) = 3 ∧
    from_bitstring 2 (to_bitstring 2 2) ≠ 2 := by
  have h : to_bitstring 2 2 = [true, false] := by
    simp [to_bitstring, natBits, natBitsLE]
  refine ⟨h, ?_, ?_⟩ <;> rw [h] <;> simp [from_bitstring] <;> norm_num

/-- Claim C9, counterexample: at `target_phase = 9/10` (which satisfies
`0 ≤ target_phase < 1`) and `r1 = 2 ≥ 1`, `target_phase * 2^r1 = 3.6` rounds to
`4 = 2^r1`, and `get_correct_bitstring` returns the bitstring 100 of length 3,
not of length `r1 = 2`: Python `format` pads but never truncates. -/
theorem C9_counterexample :
    (0 ≤ (9/10 : ℚ)) ∧ ((9/10 : ℚ) < 1) ∧ (1 ≤ 2) ∧
    (get_correct_bitstring (9/10) 2).length = 3 ∧
    (get_correct_bitstring (9/10) 2).length ≠ 2 := by
  have hfloor : (⌊(9/10 * 2^2 : ℚ)⌋ : ℤ) = 3 := by
    rw [Int.floor_eq_iff]
    constructor <;> norm_num
  have hr : np_round (9/10 * 2^2) = 4 := by
    simp only [np_round, hfloor]
    norm_num
  have h : get_correct_bitstring (9/10) 2 = [true, false, false] := by
    rw [get_correct_bitstring, hr]
    simp [to_bitstring, natBits, natBitsLE]
  rw [h]
  refine ⟨by norm_num, by norm_num, by norm_num, rfl, by decide⟩

/-- Claim C9, amended: for `r1 ≥ 1` and `0 ≤ target_phase < 1`,
`get_correct_bitstring(target_phase, r1)` returns a bitstring of length exactly
`r1` whenever `np.round(target_phase * 2^r1)` is below `2^r1`; when
`target_phase` is close enough to 1 that the product rounds to `2^r1`, the
bitstring has length `r1 + 1` instead. -/
theorem C9_bitstring_length (target_phase : ℚ) (r1 : ℕ) (hr1 : 1 ≤ r1)
    (h0 : 0 ≤ target_phase) (h1 : target_phase < 1) :
    (np_round (target_phase * 2 ^ r1) < 2 ^ r1 →
      (get_correct_bitstring target_phase r1).length = r1) ∧
    (np_round (target_phase * 2 ^ r1) = 2 ^ r1 →
      (get_correct_bitstring target_phase r1).length = r1 + 1) := by
  have hnn : 0 ≤ np_round (target_phase * 2 ^ r1) :=
    np_round_nonneg _ (mul_nonneg h0 (by positivity))
  constructor
  · intro hlt
    have hv : (np_round (target_phase * 2 ^ r1)).toNat < 2 ^ r1 := by
      have hcast : ((np_round (target_phase * 2 ^ r1)).toNat : ℤ)
          = np_round (target_phase * 2 ^ r1) := Int.toNat_of_nonneg hnn
      have hz : ((np_round (target_phase * 2 ^ r1)).toNat : ℤ) < ((2 ^ r1 : ℕ) : ℤ) := by
        rw [hcast]; exact_mod_cast hlt
      exact_mod_cast hz
    rw [get_correct_bitstring, to_bitstring]
    by_cases h0' : (np_round (target_phase * 2 ^ r1)).toNat = 0
    · rw [h0']
      simp only [if_pos rfl]
      simp
      omega
    · simp only [if_neg h0']
      have hlen : (natBitsLE (np_round (target_phase * 2 ^ r1)).toNat).length ≤ r1 :=
        natBitsLE_length_le r1 _ hv
      simp [natBits]
      omega
  · intro heq
    have hv : (np_round (target_phase * 2 ^ r1)).toNat = 2 ^ r1 := by
      rw [heq]
      rw [show ((2:ℤ)^r1) = ((2^r1 : ℕ) : ℤ) from by push_cast; ring]
      exact Int.toNat_natCast _
    rw [get_correct_bitstring, to_bitstring, hv]
    have hne : (2 : ℕ) ^ r1 ≠ 0 := by positivity
    simp only [if_neg hne]
    have hlen : (natBits (2 ^ r1)).length = r1 + 1 := by
      simp [natBits, natBitsLE_length_pow]
    simp [hlen]

/-- Claim C9, witness at `target_phase = 1/4`, `r1 = 2`
(where the product rounds to `1 < 2^2`). -/
theorem C9_witness :
    ((1 : ℕ) ≤ 2) ∧ (0 ≤ (1/4 : ℚ)) ∧ ((1/4 : ℚ) < 1) ∧
    ((np_round (1/4 * 2 ^ 2) < 2 ^ 2 →
      (get_correct_bitstring (1/4) 2).length = 2) ∧
    (np_round (1/4 * 2 ^ 2) = 2 ^ 2 →
      (get_correct_bitstring (1/4) 2).length = 2 + 1)) :=
  ⟨by norm_num, by norm_num, by norm_num,
    C9_bitstring_length (1/4) 2 (by norm_num) (by norm_num) (by norm_num)⟩

/-- Summing the measured-phase weights over an enumeration starting at `n` scales
the recursive phase value by `2 ^ (-n)`. -/
theorem phase_enumFrom (bits : List Bool) :
    ∀ n : ℕ, ((bits.enumFrom n).map
        (fun p => (p.2.toNat : ℚ) * (2 : ℚ) ^ (-((p.1 : ℤ) + 1)))).sum
      = (2 : ℚ) ^ (-(n : ℤ)) * phaseAux bits := by
  induction bits with
  | nil => intro n; simp [phaseAux]
  | cons b t ih =>
    intro n
    have hstep : (2 : ℚ) ^ (-((n : ℤ) + 1)) = (2 : ℚ) ^ (-(n : ℤ)) * (1 / 2) := by
      rw [neg_add, zpow_add₀ (two_ne_zero)]
      norm_num
    have hcast : ((n + 1 : ℕ) : ℤ) = (n : ℤ) + 1 := by push_cast; ring
    simp only [List.enumFrom, List.map_cons, List.sum_cons, ih (n + 1), phaseAux,
      hcast, hstep]
    ring

/-- The enumerate-sum phase formula agrees with its recursive form. -/
theorem phase_formula_eq_phaseAux (bits : List Bool) :
    phase_formula bits = phaseAux bits := by
  have h := phase_enumFrom bits 0
  simp only [CharP.cast_eq_zero, neg_zero, zpow_zero, one_mul] at h
  rw [phase_formula, List.enum, h]

/-- The phase of a bitstring of length `L` is `k / 2^L` for some `k < 2^L`. -/
theorem phaseAux_dyadic (bits : List Bool) :
    ∃ k : ℕ, k < 2 ^ bits.length ∧ phaseAux bits = (k : ℚ) / 2 ^ bits.length := by
  induction bits with
  | nil => exact ⟨0, by norm_num, by simp [phaseAux]⟩
  | cons b t ih =>
    obtain ⟨k, hk, he⟩ := ih
    refine ⟨b.toNat * 2 ^ t.length + k, ?_, ?_⟩
    · have hb : b.toNat ≤ 1 := Bool.toNat_le b
      have hbound : b.toNat * 2 ^ t.length ≤ 2 ^ t.length := by
        calc b.toNat * 2 ^ t.length ≤ 1 * 2 ^ t.length :=
          Nat.mul_le_mul_right _ hb
          _ = 2 ^ t.length := one_mul _
      calc b.toNat * 2 ^ t.length + k < 2 ^ t.length + 2 ^ t.length := by omega
        _ = 2 ^ (t.length + 1) := by rw [pow_succ]; ring
        _ = 2 ^ (b :: t).length := by simp
    · rw [phaseAux, he]
      have h2 : ((2 : ℚ) ^ (b :: t).length) = 2 ^ t.length * 2 := by
        simp [pow_succ]
      rw [h2]
      push_cast
      have hpos : (2 : ℚ) ^ t.length ≠ 0 := by positivity
      field_simp
      ring

/-- Claim C10: whenever `phase_from_counts` succeeds on a counts dictionary
(whose keys are bitstrings of 0s and 1s by the type of the embedding), the
computed phase is a dyadic rational in the half-open interval `[0, 1)`; and the
formula used is the same one `get_phase_from_qpe_circuit` applies to its most
frequent sampled bitstring. -/
theorem C10_phase_dyadic_unit (counts : List (List Bool × ℕ)) (q : ℚ)
    (bs : List Bool)
    (h : phase_from_counts counts = Except.ok (q, bs)) :
    (∃ k n : ℕ, k < 2 ^ n ∧ q = (k : ℚ) / 2 ^ n) ∧ 0 ≤ q ∧ q < 1 ∧
    qpe_phase_formula bs = q := by
  have hq : q = phase_formula bs := by
    unfold phase_from_counts at h
    cases hmf : most_frequent counts with
    | error e => rw [hmf] at h; exact absurd h (by simp)
    | ok bs' =>
      rw [hmf] at h
      simp only [Except.ok.injEq, Prod.mk.injEq] at h
      obtain ⟨h1, h2⟩ := h
      rw [← h2, h1]
  obtain ⟨k, hk, he⟩ := phaseAux_dyadic bs
  have hq2 : q = (k : ℚ) / 2 ^ bs.length := by
    rw [hq, phase_formula_eq_phaseAux, he]
  refine ⟨⟨k, bs.length, hk, hq2⟩, ?_, ?_, ?_⟩
  · rw [hq2]; positivity
  · rw [hq2]
    rw [div_lt_one (by positivity)]
    exact_mod_cast hk
  · rw [hq]; rfl

/-- Claim C10, witness on the counts dictionary mapping 01 to 7 and 10 to 3:
the most frequent bitstring is 01 and the phase is 1/4. -/
theorem C10_witness :
    phase_from_counts [([false, true], 7), ([true, false], 3)]
      = Except.ok (1/4, [false, true]) ∧
    ((∃ k n : ℕ, k < 2 ^ n ∧ (1/4 : ℚ) = (k : ℚ) / 2 ^ n) ∧ 0 ≤ (1/4 : ℚ) ∧
      (1/4 : ℚ) < 1 ∧ qpe_phase_formula [false, true] = 1/4) := by
  have h : phase_from_counts [([false, true], 7), ([true, false], 3)]
      = Except.ok (1/4, [false, true]) := by
    have hmf : most_frequent [([false, true], 7), ([true, false], 3)]
        = Except.ok [false, true] := by rfl
    have hpf : phase_formula [false, true] = 1/4 := by
      simp [phase_formula, List.enum, List.enumFrom]
      norm_num
    rw [phase_from_counts, hmf]
    dsimp only
    rw [hpf]
  exact ⟨h, C10_phase_dyadic_unit _ _ _ h⟩

/-- Dividing every entry of a vector by `c` divides its squared norm by `c^2`. -/
theorem normSq_map_div (v : List ℝ) (c : ℝ) :
    normSq (v.map (fun x => x / c)) = normSq v / c ^ 2 := by
  induction v with
  | nil => simp [normSq]
  | cons x t ih =>
    simp only [normSq, List.map_cons, List.sum_cons] at ih ⊢
    rw [ih, div_pow, add_div]

/-- Claim C7, counterexample: notebook code does rescale a state vector to unit
norm.  The statement `initial_state /= np.linalg.norm(initial_state)` of the
QFT-check cell, applied to the vector `(3, 4)` (squared norm 25, not a unit
vector), replaces it by `(3/5, 4/5)`, whose squared norm is 1. -/
theorem C7_counterexample :
    qft_check_rescale [3, 4] = [3/5, 4/5] ∧
    normSq (qft_check_rescale [3, 4]) = 1 ∧
    normSq [3, 4] ≠ 1 := by
  have hsq : normSq [3, 4] = 25 := by simp [normSq]; norm_num
  have hnorm : np_linalg_norm [3, 4] = 5 := by
    rw [np_linalg_norm, hsq, show (25 : ℝ) = 5 ^ 2 by norm_num,
      Real.sqrt_sq (by norm_num)]
  have hrescale : qft_check_rescale [3, 4] = [3/5, 4/5] := by
    rw [qft_check_rescale, hnorm]
    norm_num
  refine ⟨hrescale, ?_, ?_⟩
  · rw [hrescale]
    simp [normSq]
    norm_num
  · rw [hsq]; norm_num

/-- Claim C7, amended: the notebooks never normalize a unitary matrix — in
`random_unitary_iter` the expression `rut/np.trace(rut)` is computed but its
value is discarded, so the iterator yields the raw exponentials
`expm((2^m) * iH)` — but the notebooks do rescale state vectors to unit norm:
the QFT-check cell divides the prepared (nonzero) initial state by its norm,
producing a unit vector itself rather than leaving normalization to the SDK. -/
theorem C7_normalization (v : List ℝ) (r1 r2 : ℕ) (hv : 0 < normSq v) :
    normSq (qft_check_rescale v) = 1 ∧
    random_unitary_iter r1 r2 = (List.range r1).map (fun m => UExpr.expmI (2 ^ m)) := by
  constructor
  · rw [qft_check_rescale, normSq_map_div, np_linalg_norm,
      Real.sq_sqrt (le_of_lt hv), div_self (ne_of_gt hv)]
  · rfl

/-- Claim C7, witness at the vector `(3, 4)` and `r1 = r2 = 1`. -/
theorem C7_witness :
    (0 < normSq [3, 4]) ∧
    (normSq (qft_check_rescale [3, 4]) = 1 ∧
      random_unitary_iter 1 1 = (List.range 1).map (fun m => UExpr.expmI (2 ^ m))) := by
  have hv : (0 : ℝ) < normSq [3, 4] := by simp [normSq]; norm_num
  exact ⟨hv, C7_normalization [3, 4] 1 1 hv⟩

/-- A property preserved by each fold step holds of the fold result. -/
theorem foldl_preserve {α σ : Type} (P : σ → Prop) (step : σ → α → σ)
    (hstep : ∀ s a, P s → P (step s a)) :
    ∀ (l : List α) (s : σ), P s → P (l.foldl step s) := by
  intro l
  induction l with
  | nil => intro s hs; exact hs
  | cons a t ih => intro s hs; exact ih _ (hstep s a hs)

/-- Writing one array cell in place preserves the length of every row. -/
theorem set_count_row_lengths (N : ℕ) (bc : List (List Bool × List ℕ))
    (bs : List Bool) (ind cnt : ℕ)
    (h : ∀ kv ∈ bc, kv.2.length = N) :
    ∀ kv ∈ set_count bc bs ind cnt, kv.2.length = N := by
  intro kv hkv
  rw [set_count, List.mem_map] at hkv
  obtain ⟨kv0, hkv0, heq⟩ := hkv
  by_cases hc : kv0.1 = bs
  · rw [if_pos hc] at heq
    rw [← heq]
    simp [h kv0 hkv0]
  · rw [if_neg hc] at heq
    rw [← heq]
    exact h kv0 hkv0

/-- One pass of the inner rearrangement loop keeps every row at length `N`:
new rows are created as `np.zeros(N)` and in-place writes keep lengths. -/
theorem rearrange_step_row_lengths (N ind : ℕ) (entry : List (List Bool × ℕ)) :
    ∀ (bc : List (List Bool × List ℕ)), (∀ kv ∈ bc, kv.2.length = N) →
      ∀ kv ∈ rearrange_step N bc ind entry, kv.2.length = N := by
  induction entry with
  | nil => intro bc h; exact h
  | cons e t ih =>
    intro bc h
    rw [rearrange_step, List.foldl_cons]
    have h3 : ∀ kv ∈ (if e.1 ∈ dictKeys bc then bc
        else bc ++ [(e.1, List.replicate N 0)]), kv.2.length = N := by
      split
      · exact h
      · intro kv hkv
        rcases List.mem_append.mp hkv with hkv | hkv
        · exact h kv hkv
        · rcases List.mem_singleton.mp hkv with rfl
          simp
    exact ih _ (set_count_row_lengths N _ e.1 ind e.2 h3)

/-- Every row of `bitstring_counts` has length `len(list(outcomes.keys()))`. -/
theorem bitstring_counts_row_lengths (sweep : List ℚ)
    (sample : ℚ → List (List Bool × ℕ)) :
    ∀ kv ∈ bitstring_counts sweep sample,
      kv.2.length = (dictKeys (build_outcomes sweep sample)).length := by
  rw [bitstring_counts]
  refine foldl_preserve
    (fun (bc : List (List Bool × List ℕ)) => ∀ kv ∈ bc,
      kv.2.length = (dictKeys (build_outcomes sweep sample)).length)
    _ ?_ _ [] (fun kv hkv => absurd hkv (List.not_mem_nil kv))
  intro s a hs
  exact rearrange_step_row_lengths _ a.1 a.2.2 s hs

/-- Inserting a fresh key into a dict appends the pair at the end. -/
theorem dictUpsert_not_mem {α β : Type} [DecidableEq α] (d : List (α × β))
    (k : α) (v : β) (h : k ∉ dictKeys d) : dictUpsert d k v = d ++ [(k, v)] := by
  rw [dictUpsert, if_neg h]

/-- Filling a dict along a duplicate-free list of fresh keys appends one entry
per key, in order. -/
theorem build_outcomes_general (sample : ℚ → List (List Bool × ℕ)) :
    ∀ (sweep : List ℚ) (acc : List (ℚ × List (List Bool × ℕ))),
      sweep.Nodup → (∀ p ∈ sweep, p ∉ dictKeys acc) →
      sweep.foldl (fun d p => dictUpsert d p (sample p)) acc
        = acc ++ sweep.map (fun p => (p, sample p)) := by
  intro sweep
  induction sweep with
  | nil => intro acc _ _; simp
  | cons p t ih =>
    intro acc hnd hmem
    rw [List.foldl_cons, dictUpsert_not_mem _ _ _ (hmem p (List.mem_cons_self p t))]
    rw [ih _ (List.Nodup.of_cons hnd) ?_]
    · simp
    · intro q hq
      rw [dictKeys, List.map_append, List.mem_append]
      rintro (hq1 | hq2)
      · exact hmem q (List.mem_cons_of_mem p hq) hq1
      · simp at hq2
        rcases hq2 with rfl
        exact (List.nodup_cons.mp hnd).1 hq

/-- For a duplicate-free sweep the keys of `outcomes` are the sweep itself. -/
theorem build_outcomes_keys (sweep : List ℚ) (sample : ℚ → List (List Bool × ℕ))
    (hnd : sweep.Nodup) : dictKeys (build_outcomes sweep sample) = sweep := by
  rw [build_outcomes,
    build_outcomes_general sample sweep [] hnd (by simp [dictKeys])]
  rw [dictKeys, List.nil_append, List.map_map]
  have hid : (Prod.fst ∘ fun p => (p, sample p)) = fun (p : ℚ) => p := rfl
  rw [hid]
  exact List.map_id' sweep

/-- Every row of a modelled estimator result has the length of its sweep. -/
theorem estimator_result_rows (observables : List String) (sweep : List ℚ)
    (ev std : String → ℚ → ℚ) :
    (∀ row ∈ (estimator_result observables sweep ev std).evs,
      row.length = sweep.length) ∧
    (∀ row ∈ (estimator_result observables sweep ev std).stds,
      row.length = sweep.length) := by
  constructor
  all_goals
    intro row hrow
    simp only [estimator_result, List.mem_map] at hrow
    obtain ⟨o, _, rfl⟩ := hrow
    simp

/-- Claim C6: array lengths match the sweep length.  For any duplicate-free
parameter sweep, every array stored in `bitstring_counts` by the rearrangement
loop has length equal to the number of sweep points; and for every estimator
result passed to `plot_estimator_result` in the estimator notebook, each row of
expectation values and of standard deviations has the length of the parameter
sweep it is plotted against (for the job-load branch this relies on the recorded
job having been run over the five-point sparse sweep, which the local code
cannot enforce and is here a hypothesis). -/
theorem C6_lengths_match_sweep (fine : List ℚ) (sample : ℚ → List (List Bool × ℕ))
    (observables : List String) (ev std : String → ℚ → ℚ)
    (loaded : EstimatorResult) (which : String)
    (hnd : fine.Nodup)
    (hload : which = "load" →
      ∀ row ∈ loaded.evs ++ loaded.stds, row.length = sparse_param_sweep.length)
    (hwhich : which = "run" ∨ which = "load") :
    (∀ kv ∈ bitstring_counts fine sample, kv.2.length = fine.length) ∧
    (∀ pr ∈ estimator_plot_calls which observables fine ev std loaded,
      (∀ row ∈ pr.1.evs, row.length = pr.2.length) ∧
      (∀ row ∈ pr.1.stds, row.length = pr.2.length)) := by
  constructor
  · intro kv hkv
    have h := bitstring_counts_row_lengths fine sample kv hkv
    rw [build_outcomes_keys fine sample hnd] at h
    exact h
  · intro pr hpr
    have hreal : (∀ row ∈ (if which = "run"
          then estimator_result observables sparse_param_sweep ev std
          else loaded).evs, row.length = sparse_param_sweep.length) ∧
        (∀ row ∈ (if which = "run"
          then estimator_result observables sparse_param_sweep ev std
          else loaded).stds, row.length = sparse_param_sweep.length) := by
      rcases hwhich with hw | hw
      · rw [if_pos hw]
        exact estimator_result_rows observables sparse_param_sweep ev std
      · have hne : which ≠ "run" := by rw [hw]; decide
        rw [if_neg hne]
        constructor
        all_goals
          intro row hrow
          exact hload hw row (by simp [hrow])
    simp only [estimator_plot_calls, List.mem_cons, List.mem_singleton] at hpr
    rcases hpr with rfl | rfl | rfl | rfl | h
    · exact ⟨(estimator_result_rows observables fine ev std).1,
        (estimator_result_rows observables fine ev std).2⟩
    · exact ⟨(estimator_result_rows observables fine ev std).1,
        (estimator_result_rows observables fine ev std).2⟩
    · exact hreal
    · exact ⟨(estimator_result_rows observables sparse_param_sweep ev std).1,
        (estimator_result_rows observables sparse_param_sweep ev std).2⟩
    · exact absurd h (List.not_mem_nil pr)

/-- Claim C6, witness on the two-point sweep `[0, 1]` with empty sample
dictionaries and no observables, in the `which = "run"` branch. -/
theorem C6_witness :
    (([(0 : ℚ), 1]).Nodup) ∧
    (("run" : String) = "run" ∨ ("run" : String) = "load") ∧
    ((∀ kv ∈ bitstring_counts [0, 1] (fun _ => []), kv.2.length = ([(0:ℚ), 1]).length) ∧
     (∀ pr ∈ estimator_plot_calls "run" [] [0, 1]
        (fun _ _ => 0) (fun _ _ => 0) ⟨[], []⟩,
       (∀ row ∈ pr.1.evs, row.length = pr.2.length) ∧
       (∀ row ∈ pr.1.stds, row.length = pr.2.length))) := by
  have hnd : ([(0 : ℚ), 1]).Nodup := by norm_num
  exact ⟨hnd, Or.inl rfl,
    C6_lengths_match_sweep [0, 1] (fun _ => []) [] (fun _ _ => 0) (fun _ _ => 0)
      ⟨[], []⟩ "run" hnd (fun hcontra => absurd hcontra (by decide)) (Or.inl rfl)⟩

end QiskitTutorials
